import Mathlib

/-!
Shallow embedding of the keywerty keyboard logic engine
(`src/keywerty/src/{keys.rs, mapper.rs, keyboard/mod.rs, keyboard/smkb/*}`).

Modelling conventions:
* Rust `u8` layer ids and generic key ids / key codes are embedded as plain
  Lean types (`LayerId := Nat`, type parameters `Id`, `T` with decidable
  equality where the code requires `Eq + Hash` / `PartialEq`).
* `std::time::Instant` is embedded as a `Nat` timestamp: every call that may
  sample `Instant::now()` receives the current time `now : Nat` as an extra
  argument, and `Instant` subtraction becomes truncated `Nat` subtraction
  (the code only ever subtracts an earlier sample of a monotone clock).
* `Duration` is a `Nat` in the same time unit.
* Rust panics (the `todo!()` arms of `SMKeyboard::build_machine` and the
  `unwrap` calls inside `SMKeyboard::transition`) are embedded as
  `Except.error ()`; a normal return is `Except.ok`.
* `HashMap<KeyId, Box<dyn KeyStateMachine>>` is embedded as an association
  list in insertion order (`assocGet` / `assocSet` / key removal mirror
  `get` / in-place update / `remove`).  The iteration order of the cleanup
  harvest loop, unspecified for a `HashMap`, is modelled as insertion order.
* The `LayerMapper` trait object is embedded as a function argument
  `mapper : LayerId → Id → Option (KeyConf T)` (the mapper is read-only).
* `log::debug!` / `log::error!` calls are no-ops for the engine state and are
  dropped.
-/

namespace Keywerty

/-- Identifier for a layer (`pub type LayerId = u8` in `mapper.rs`). -/
abbrev LayerId := Nat

/-- KeyAction models the different side effects a Key can have when
activated (`keys.rs`). -/
inductive KeyAction (T : Type) where
  | SendKey (data : T)
  | StopKey (data : T)
  | PushLayer (layer_id : LayerId)
  | PopLayer (layer_id : LayerId)
  | NoOp
deriving DecidableEq, Repr

/-- Inverse of a `KeyAction` (`KeyAction::invert` in `keys.rs`). -/
def KeyAction.invert {T : Type} : KeyAction T → KeyAction T
  | .SendKey data => .StopKey data
  | .StopKey data => .SendKey data
  | .PushLayer layer_id => .PopLayer layer_id
  | .PopLayer layer_id => .PushLayer layer_id
  | .NoOp => .NoOp

/-- KeyAction defaults to NoOp (`impl Default for KeyAction`). -/
def KeyAction.deflt {T : Type} : KeyAction T := .NoOp

/-- A group of 1..3 KeyActions triggered once a key is activated
(`KeyActionSet` in `keys.rs`). -/
inductive KeyActionSet (T : Type) where
  | Single (a1 : KeyAction T)
  | Double (a1 a2 : KeyAction T)
  | Triple (a1 a2 a3 : KeyAction T)
deriving DecidableEq, Repr

/-- Collect actions in the action set in declaration order
(`KeyActionSet::get_actions`). -/
def KeyActionSet.get_actions {T : Type} : KeyActionSet T → List (KeyAction T)
  | .Single a1 => [a1]
  | .Double a1 a2 => [a1, a2]
  | .Triple a1 a2 a3 => [a1, a2, a3]

/-- Action set with every member inverted (`KeyActionSet::invert`). -/
def KeyActionSet.invert {T : Type} : KeyActionSet T → KeyActionSet T
  | .Single a1 => .Single a1.invert
  | .Double a1 a2 => .Double a1.invert a2.invert
  | .Triple a1 a2 a3 => .Triple a1.invert a2.invert a3.invert

/-- KeyActionSet defaults to a Single NoOp action
(`impl Default for KeyActionSet`). -/
def KeyActionSet.deflt {T : Type} : KeyActionSet T := .Single KeyAction.deflt

/-- Configuration for a Tap key (`TapKeyConf` in `keys.rs`). -/
structure TapKeyConf (T : Type) where
  tap : KeyActionSet T
deriving DecidableEq, Repr

/-- Configuration for a hold or eager hold key (`HoldKeyConf`). -/
structure HoldKeyConf (T : Type) where
  tap : KeyActionSet T
  hold : KeyActionSet T
deriving DecidableEq, Repr

/-- Configuration for a double tap key (`DoubleTapKeyConf`). -/
structure DoubleTapKeyConf (T : Type) where
  tap : KeyActionSet T
  double_tap : KeyActionSet T
deriving DecidableEq, Repr

/-- Configuration for a double-tap-hold key (`DoubleTapHoldKeyConf`). -/
structure DoubleTapHoldKeyConf (T : Type) where
  tap : KeyActionSet T
  double_tap : KeyActionSet T
  hold : KeyActionSet T
deriving DecidableEq, Repr

/-- Per-key behavior specification (`KeyConf` in `keys.rs`). -/
inductive KeyConf (T : Type) where
  | Tap (conf : TapKeyConf T)
  | Hold (conf : HoldKeyConf T)
  | EagerHold (conf : HoldKeyConf T)
  | DoubleTap (conf : DoubleTapKeyConf T)
  | DoubleTapHold (conf : DoubleTapHoldKeyConf T)
deriving DecidableEq, Repr

/-- Set of events that a keyboard responds to (`Event` in `keyboard/mod.rs`). -/
inductive Event (Id : Type) where
  | KeyPress (id : Id)
  | KeyRelease (id : Id)
  | Poll
deriving DecidableEq, Repr

/-- Whether the event is a key press (`Event::is_key_press`). -/
def Event.is_key_press {Id : Type} : Event Id → Bool
  | .KeyPress _ => true
  | _ => false

/-- Key id carried by the event, if any (`Event::get_key_id`). -/
def Event.get_key_id {Id : Type} : Event Id → Option Id
  | .KeyPress key_id => some key_id
  | .KeyRelease key_id => some key_id
  | .Poll => none

/-- Boolean form of the guard `matches!(event, Event::KeyPress(key_id) if
key_id != watched_key)` used by the hold-style machines. -/
def Event.is_press_of_other {Id : Type} [DecidableEq Id] (event : Event Id)
    (watched : Id) : Bool :=
  match event with
  | .KeyPress key_id => key_id ≠ watched
  | _ => false

/-- Set of actions a keyboard performs as a consequence of inputs
(`Action` in `keyboard/mod.rs`). -/
inductive Action (T : Type) where
  | SendCode (t : T)
  | Stop (t : T)
deriving DecidableEq, Repr

/-! ## Tap key state machine (`keyboard/smkb/tap_ksm.rs`) -/

/-- State of a `TapKSM`. -/
structure TapKSM (Id T : Type) where
  finished : Bool
  watched_key : Id
  conf : TapKeyConf T
  cleanup_actions : List (KeyActionSet T)
deriving DecidableEq, Repr

/-- Constructor `TapKSM::new`: captures the watched key and precomputes the
cleanup as the inverse of the tap set. -/
def TapKSM.new {Id T : Type} (watched_key : Id) (key_conf : TapKeyConf T) :
    TapKSM Id T :=
  { cleanup_actions := [key_conf.tap.invert]
    conf := key_conf
    finished := false
    watched_key := watched_key }

/-- Accessor `TapKSM::is_finished`. -/
def TapKSM.is_finished {Id T : Type} (m : TapKSM Id T) : Bool := m.finished

/-- Accessor `TapKSM::get_cleanup_actions`. -/
def TapKSM.get_cleanup_actions {Id T : Type} (m : TapKSM Id T) :
    List (KeyActionSet T) := m.cleanup_actions

/-- Transition function of `TapKSM` (`tap_ksm.rs`): while live, a press of
the watched key emits the tap set; a release of the watched key finishes the
machine; everything else is ignored. -/
def TapKSM.transition {Id T : Type} [DecidableEq Id] (m : TapKSM Id T)
    (event : Event Id) : TapKSM Id T × Option (KeyActionSet T) :=
  if m.is_finished then (m, none)
  else
    match event with
    | .KeyPress key_id =>
        if key_id = m.watched_key then (m, some m.conf.tap) else (m, none)
    | .KeyRelease key_id =>
        if key_id = m.watched_key then ({ m with finished := true }, none)
        else (m, none)
    | .Poll => (m, none)

/-! ## Hold-style machine states (`State` enum shared by `hold_ksm.rs` and
`eager_hold_ksm.rs`) -/

/-- States of the hold and eager-hold machines. -/
inductive HoldState where
  | Created
  | Waiting
  | Hold
  | Released
  | Finished
deriving DecidableEq, Repr

/-! ## Eager hold key state machine (`keyboard/smkb/eager_hold_ksm.rs`) -/

/-- State of an `EagerHoldKSM`. -/
structure EagerHoldKSM (Id T : Type) where
  watched_key : Id
  state : HoldState
  key_conf : HoldKeyConf T
  timer_start : Nat
  release_delay : Nat
  cleanup_actions : List (KeyActionSet T)
deriving DecidableEq, Repr

/-- Constructor `EagerHoldKSM::new` (`timer_start` records `Instant::now()`
at construction time, passed here as `now`). -/
def EagerHoldKSM.new {Id T : Type} (release_delay : Nat) (watched_key : Id)
    (conf : HoldKeyConf T) (now : Nat) : EagerHoldKSM Id T :=
  { release_delay := release_delay
    watched_key := watched_key
    timer_start := now
    state := .Created
    key_conf := conf
    cleanup_actions := [KeyActionSet.deflt] }

/-- Accessor `EagerHoldKSM::is_finished`. -/
def EagerHoldKSM.is_finished {Id T : Type} (m : EagerHoldKSM Id T) : Bool :=
  m.state = HoldState.Finished

/-- Accessor `EagerHoldKSM::get_cleanup_actions`. -/
def EagerHoldKSM.get_cleanup_actions {Id T : Type} (m : EagerHoldKSM Id T) :
    List (KeyActionSet T) := m.cleanup_actions

/-- Transition function of `EagerHoldKSM` (`eager_hold_ksm.rs`); `now` stands
for the `Instant::now()` samples taken during the call. -/
def EagerHoldKSM.transition {Id T : Type} [DecidableEq Id]
    (m : EagerHoldKSM Id T) (now : Nat) (event : Event Id) :
    EagerHoldKSM Id T × Option (KeyActionSet T) :=
  if m.is_finished then (m, none)
  else
    match m.state with
    | .Created =>
        -- helpers::is_watched_key_pressed
        if event = Event.KeyPress m.watched_key then
          ({ m with timer_start := now
                    state := .Waiting
                    cleanup_actions := [m.key_conf.hold.invert] },
           some m.key_conf.hold)
        else (m, none)
    | .Waiting =>
        if m.release_delay ≤ now - m.timer_start ∨
            event.is_press_of_other m.watched_key then
          ({ m with state := .Hold }, none)
        else if event = Event.KeyRelease m.watched_key then
          ({ m with state := .Released }, some m.key_conf.hold.invert)
        else (m, none)
    | .Released =>
        ({ m with state := .Finished
                  cleanup_actions := [m.key_conf.tap.invert] },
         some m.key_conf.tap)
    | .Hold =>
        if event = Event.KeyRelease m.watched_key then
          ({ m with state := .Finished }, none)
        else (m, none)
    | .Finished => (m, none)

/-! ## Hold key state machine -/

/-- State of a `HoldKSM`.

Modelled from the spec: the file `keyboard/smkb/hold_ksm.rs` is declared by
`keyboard/smkb/mod.rs` (`mod hold_ksm;`, used by `SMKeyboard::build_machine`)
but is not present in the source tree.  The machine is embedded from spec
§4.3.2 (states Created, Waiting, Hold, Released, Finished and their
transitions), with the cleanup sets taken from the cleanup convention of
§4.5 and the seed scenarios §8(a)-(b): after committing `hold` the cleanup is
`[hold.invert()]`, after emitting `tap` it is `[tap.invert()]`, exactly as
the sibling `EagerHoldKSM` maintains its cleanup. -/
structure HoldKSM (Id T : Type) where
  watched_key : Id
  state : HoldState
  key_conf : HoldKeyConf T
  timer_start : Nat
  release_delay : Nat
  cleanup_actions : List (KeyActionSet T)
deriving DecidableEq, Repr

/-- Constructor `HoldKSM::new` (modelled from the spec, mirroring
`EagerHoldKSM::new`). -/
def HoldKSM.new {Id T : Type} (release_delay : Nat) (watched_key : Id)
    (conf : HoldKeyConf T) (now : Nat) : HoldKSM Id T :=
  { release_delay := release_delay
    watched_key := watched_key
    timer_start := now
    state := .Created
    key_conf := conf
    cleanup_actions := [KeyActionSet.deflt] }

/-- Accessor `HoldKSM::is_finished` (modelled from the spec). -/
def HoldKSM.is_finished {Id T : Type} (m : HoldKSM Id T) : Bool :=
  m.state = HoldState.Finished

/-- Accessor `HoldKSM::get_cleanup_actions` (modelled from the spec). -/
def HoldKSM.get_cleanup_actions {Id T : Type} (m : HoldKSM Id T) :
    List (KeyActionSet T) := m.cleanup_actions

/-- Transition function of the lazy `HoldKSM`, modelled from spec §4.3.2:
Created waits for the watched press; Waiting commits `hold` on threshold
expiry or a foreign press and emits `tap` on an early watched release;
Released finishes on the next transition; Hold finishes on the watched
release. -/
def HoldKSM.transition {Id T : Type} [DecidableEq Id] (m : HoldKSM Id T)
    (now : Nat) (event : Event Id) : HoldKSM Id T × Option (KeyActionSet T) :=
  if m.is_finished then (m, none)
  else
    match m.state with
    | .Created =>
        if event = Event.KeyPress m.watched_key then
          ({ m with timer_start := now, state := .Waiting }, none)
        else (m, none)
    | .Waiting =>
        if m.release_delay ≤ now - m.timer_start ∨
            event.is_press_of_other m.watched_key then
          ({ m with state := .Hold
                    cleanup_actions := [m.key_conf.hold.invert] },
           some m.key_conf.hold)
        else if event = Event.KeyRelease m.watched_key then
          ({ m with state := .Released
                    cleanup_actions := [m.key_conf.tap.invert] },
           some m.key_conf.tap)
        else (m, none)
    | .Released => ({ m with state := .Finished }, none)
    | .Hold =>
        if event = Event.KeyRelease m.watched_key then
          ({ m with state := .Finished }, none)
        else (m, none)
    | .Finished => (m, none)

/-! ## Trait-object machines

The orchestrator owns `Box<dyn KeyStateMachine<KeyId, T>>` values; the
heterogeneous collection is embedded as a sum over the machine types
`SMKeyboard::build_machine` can construct. -/

/-- A boxed key state machine owned by the orchestrator. -/
inductive Machine (Id T : Type) where
  | tap (m : TapKSM Id T)
  | hold (m : HoldKSM Id T)
  | eagerHold (m : EagerHoldKSM Id T)
deriving DecidableEq, Repr

/-- Virtual dispatch of `KeyStateMachine::transition`; `now` stands for the
`Instant::now()` samples taken during the call. -/
def Machine.transition {Id T : Type} [DecidableEq Id] (m : Machine Id T)
    (now : Nat) (event : Event Id) : Machine Id T × Option (KeyActionSet T) :=
  match m with
  | .tap m =>
      let r := m.transition event
      (.tap r.1, r.2)
  | .hold m =>
      let r := m.transition now event
      (.hold r.1, r.2)
  | .eagerHold m =>
      let r := m.transition now event
      (.eagerHold r.1, r.2)

/-- Virtual dispatch of `KeyStateMachine::get_watched_key`. -/
def Machine.get_watched_key {Id T : Type} : Machine Id T → Id
  | .tap m => m.watched_key
  | .hold m => m.watched_key
  | .eagerHold m => m.watched_key

/-- Virtual dispatch of `KeyStateMachine::is_finished`. -/
def Machine.is_finished {Id T : Type} : Machine Id T → Bool
  | .tap m => m.is_finished
  | .hold m => m.is_finished
  | .eagerHold m => m.is_finished

/-- Virtual dispatch of `KeyStateMachine::get_cleanup_actions`. -/
def Machine.get_cleanup_actions {Id T : Type} :
    Machine Id T → List (KeyActionSet T)
  | .tap m => m.get_cleanup_actions
  | .hold m => m.get_cleanup_actions
  | .eagerHold m => m.get_cleanup_actions

/-! ## Association-list embedding of `HashMap<KeyId, _>` -/

/-- Lookup by key (`HashMap::get` / `contains_key`). -/
def assocGet {Id α : Type} [DecidableEq Id] : List (Id × α) → Id → Option α
  | [], _ => none
  | (k, v) :: rest, id => if k = id then some v else assocGet rest id

/-- Replace the value stored under an existing key in place
(the `get_mut` write-back of the broadcast loop). -/
def assocSet {Id α : Type} [DecidableEq Id] :
    List (Id × α) → Id → α → List (Id × α)
  | [], _, _ => []
  | (k, v) :: rest, id, v2 =>
      if k = id then (k, v2) :: rest else (k, v) :: assocSet rest id v2

/-! ## Orchestrator (`keyboard/smkb/mod.rs`) -/

/-- Engine settings (`SMKeyboardSettings`); durations are `Nat`s. -/
structure SMKeyboardSettings where
  hold_ksm_delay : Nat
  dtksm_retap_delay : Nat
  dtksm_hold_delay : Nat
  dthksm_retap_delay : Nat
  dthksm_hold_delay : Nat
deriving DecidableEq, Repr

/-- Default settings (`impl Default for SMKeyboardSettings`), in
milliseconds. -/
def SMKeyboardSettings.deflt : SMKeyboardSettings :=
  { hold_ksm_delay := 750
    dtksm_retap_delay := 100
    dtksm_hold_delay := 100
    dthksm_retap_delay := 100
    dthksm_hold_delay := 100 }

/-- Engine state (`SMKeyboard`).  The read-only `layer_mapper` field is
passed separately to the operations that consult it, so that the state is a
first-order datum. -/
structure SMKeyboard (Id T : Type) where
  default_layer : LayerId
  layer_stack : List LayerId
  state_machines : List (Id × Machine Id T)
  state_machine_order : List Id
  settings : SMKeyboardSettings
deriving DecidableEq, Repr

/-- The mapper capability (`LayerMapper::get_conf` as a function). -/
abbrev Mapper (Id T : Type) := LayerId → Id → Option (KeyConf T)

/-- Constructor `SMKeyboard::new`. -/
def SMKeyboard.new {Id T : Type} (default_layer : LayerId)
    (settings : SMKeyboardSettings) : SMKeyboard Id T :=
  { settings := settings
    default_layer := default_layer
    state_machines := []
    layer_stack := []
    state_machine_order := [] }

/-- Active layer: the last pushed layer, or the default layer when the stack
is empty (`SMKeyboard::get_active_layer`; the stack is a `Vec` whose top is
its last element). -/
def SMKeyboard.get_active_layer {Id T : Type} (kb : SMKeyboard Id T) :
    LayerId :=
  kb.layer_stack.getLast?.getD kb.default_layer

/-- Apply one `KeyAction` to the engine state, possibly producing an output
(`SMKeyboard::handle_key_action`).  `PopLayer` pops the top of the stack
regardless of the carried layer id (the code marks this with a FIXME). -/
def SMKeyboard.handle_key_action {Id T : Type} (kb : SMKeyboard Id T)
    (key_action : KeyAction T) : SMKeyboard Id T × Option (Action T) :=
  match key_action with
  | .SendKey data => (kb, some (Action.SendCode data))
  | .StopKey data => (kb, some (Action.Stop data))
  | .PushLayer layer_id =>
      ({ kb with layer_stack := kb.layer_stack ++ [layer_id] }, none)
  | .PopLayer _ =>
      ({ kb with layer_stack := kb.layer_stack.dropLast }, none)
  | .NoOp => (kb, none)

/-- Build and initialize the correct state machine from a key conf
(`SMKeyboard::build_machine`).  The `DoubleTap` and `DoubleTapHold` arms are
`todo!()` in the code, i.e. they abort: embedded as `Except.error ()`. -/
def SMKeyboard.build_machine {Id T : Type} (kb : SMKeyboard Id T)
    (key_id : Id) (key_conf : KeyConf T) (now : Nat) :
    Except Unit (Machine Id T) :=
  match key_conf with
  | .Tap conf => .ok (.tap (TapKSM.new key_id conf))
  | .Hold conf =>
      .ok (.hold (HoldKSM.new kb.settings.hold_ksm_delay key_id conf now))
  | .EagerHold conf =>
      .ok (.eagerHold
        (EagerHoldKSM.new kb.settings.hold_ksm_delay key_id conf now))
  | .DoubleTap _ => .error ()
  | .DoubleTapHold _ => .error ()

/-- Handle a key press by creating a state machine when none watches the
pressed key and the mapper returns a configuration
(`SMKeyboard::handle_key_press_event`). -/
def SMKeyboard.handle_key_press_event {Id T : Type} [DecidableEq Id]
    (mapper : Mapper Id T) (kb : SMKeyboard Id T) (now : Nat)
    (event : Event Id) : Except Unit (SMKeyboard Id T) :=
  if !event.is_key_press then .ok kb
  else
    match event.get_key_id with
    | none => .error ()  -- get_key_id().unwrap(); unreachable for a press
    | some key_id =>
        match assocGet kb.state_machines key_id with
        | some _ => .ok kb  -- log::debug!: machine already active
        | none =>
            match mapper kb.get_active_layer key_id with
            | some conf =>
                match kb.build_machine key_id conf now with
                | .error e => .error e
                | .ok machine =>
                    .ok { kb with
                            state_machines :=
                              kb.state_machines ++ [(key_id, machine)]
                            state_machine_order :=
                              kb.state_machine_order ++ [key_id] }
            | none => .ok kb  -- log::error!: missing key configuration

/-- Broadcast loop of `SMKeyboard::transition`: for each key id in creation
order, look the machine up (`get_mut(..).unwrap()`), step it, write it back,
and collect the emitted action set, tagged with the key id, in emission
order. -/
def stepMachines {Id T : Type} [DecidableEq Id]
    (machines : List (Id × Machine Id T)) (order : List Id) (now : Nat)
    (event : Event Id) :
    Except Unit (List (Id × Machine Id T) × List (Id × KeyActionSet T)) :=
  match order with
  | [] => .ok (machines, [])
  | key_id :: rest =>
      match assocGet machines key_id with
      | none => .error ()  -- get_mut(key_id).unwrap() aborts
      | some machine =>
          let r := machine.transition now event
          let machines2 := assocSet machines key_id r.1
          match stepMachines machines2 rest now event with
          | .error e => .error e
          | .ok (machines3, pending) =>
              match r.2 with
              | some key_actions =>
                  .ok (machines3, (key_id, key_actions) :: pending)
              | none => .ok (machines3, pending)

/-- Cleanup harvest loop of `SMKeyboard::transition`: for every finished
machine, append its cleanup action sets, tagged with its key id, to the
pending queue (map iteration modelled in insertion order). -/
def collectCleanups {Id T : Type} :
    List (Id × Machine Id T) → List (Id × KeyActionSet T)
  | [] => []
  | (key_id, machine) :: rest =>
      if machine.is_finished then
        (machine.get_cleanup_actions.map (fun s => (key_id, s)))
          ++ collectCleanups rest
      else collectCleanups rest

/-- Inner loop of the action-application phase: expand one pending
`KeyActionSet` through `handle_key_action`. -/
def applyKeyActions {Id T : Type} (kb : SMKeyboard Id T) :
    List (KeyAction T) → SMKeyboard Id T × List (Action T)
  | [] => (kb, [])
  | key_action :: rest =>
      let r := kb.handle_key_action key_action
      let r2 := applyKeyActions r.1 rest
      match r.2 with
      | some action => (r2.1, action :: r2.2)
      | none => r2

/-- Action-application phase of `SMKeyboard::transition`: drain the pending
queue in order, expanding each set to its actions in declaration order. -/
def applyPending {Id T : Type} (kb : SMKeyboard Id T) :
    List (Id × KeyActionSet T) → SMKeyboard Id T × List (Action T)
  | [] => (kb, [])
  | (_, key_actions) :: rest =>
      let r := applyKeyActions kb key_actions.get_actions
      let r2 := applyPending r.1 rest
      (r2.1, r.2 ++ r2.2)

/-- Remove finished machines from the machine map and the creation-order
list (`SMKeyboard::drop_finished_machines`). -/
def SMKeyboard.drop_finished_machines {Id T : Type} [DecidableEq Id]
    (kb : SMKeyboard Id T) : SMKeyboard Id T :=
  let finished_machines :=
    (kb.state_machines.filter (fun p => p.2.is_finished)).map Prod.fst
  { kb with
      state_machine_order :=
        kb.state_machine_order.filter
          (fun key_id => !finished_machines.contains key_id)
      state_machines :=
        kb.state_machines.filter
          (fun p => !finished_machines.contains p.1) }

/-- One engine step (`SMKeyboard::transition` in `keyboard/smkb/mod.rs`):
machine creation on a press, event broadcast in creation order, cleanup
harvest from finished machines, action application, and dropping of finished
machines.  Returns the externally visible actions; `Except.error ()` marks
an aborted (panicking) call. -/
def SMKeyboard.transition {Id T : Type} [DecidableEq Id]
    (mapper : Mapper Id T) (kb : SMKeyboard Id T) (now : Nat)
    (event : Event Id) : Except Unit (SMKeyboard Id T × List (Action T)) :=
  match SMKeyboard.handle_key_press_event mapper kb now event with
  | .error e => .error e
  | .ok kb1 =>
      match stepMachines kb1.state_machines kb1.state_machine_order now
          event with
      | .error e => .error e
      | .ok r =>
          let kb2 := { kb1 with state_machines := r.1 }
          let pending := r.2 ++ collectCleanups kb2.state_machines
          let r2 := applyPending kb2 pending
          .ok (r2.1.drop_finished_machines, r2.2)

/-- Drive a timestamped event sequence through the engine, concatenating the
outputs of the successive `transition` calls. -/
def SMKeyboard.run {Id T : Type} [DecidableEq Id] (mapper : Mapper Id T)
    (kb : SMKeyboard Id T) :
    List (Nat × Event Id) → Except Unit (SMKeyboard Id T × List (Action T))
  | [] => .ok (kb, [])
  | (now, event) :: rest =>
      match kb.transition mapper now event with
      | .error e => .error e
      | .ok r =>
          match SMKeyboard.run mapper r.1 rest with
          | .error e => .error e
          | .ok r2 => .ok (r2.1, r.2 ++ r2.2)

/-! ## Derived notions used by the verification -/

/-- Iterate `KeyStateMachine::transition` on a standalone machine. -/
def Machine.runMachine {Id T : Type} [DecidableEq Id] (m : Machine Id T) :
    List (Nat × Event Id) → Machine Id T
  | [] => m
  | (now, event) :: rest => ((m.transition now event).1).runMachine rest

/-- Whether a `KeyAction` manipulates the layer stack. -/
def KeyAction.is_layer_action {T : Type} : KeyAction T → Bool
  | .PushLayer _ => true
  | .PopLayer _ => true
  | _ => false

/-- Codes of the `SendCode` outputs of a run, as a multiset. -/
def sendCodes {T : Type} (outs : List (Action T)) : Multiset T :=
  (outs.filterMap fun a =>
    match a with
    | .SendCode t => some t
    | .Stop _ => none : List T)

/-- Codes of the `Stop` outputs of a run, as a multiset. -/
def stopCodes {T : Type} (outs : List (Action T)) : Multiset T :=
  (outs.filterMap fun a =>
    match a with
    | .SendCode _ => none
    | .Stop t => some t : List T)

/-- Signed contribution of one output to the send/stop balance of code `t`. -/
def Action.bal {T : Type} [DecidableEq T] (a : Action T) (t : T) : ℤ :=
  match a with
  | .SendCode d => if d = t then 1 else 0
  | .Stop d => if d = t then -1 else 0

/-- Send/stop balance of code `t` over an output list. -/
def outBal {T : Type} [DecidableEq T] (outs : List (Action T)) (t : T) : ℤ :=
  (outs.map (fun a => a.bal t)).sum

/-- Signed contribution of one `KeyAction` to the balance of code `t`
(`SendKey` counts +1, `StopKey` counts -1, layer actions and `NoOp` count
0 because they produce no output). -/
def KeyAction.bal {T : Type} [DecidableEq T] (a : KeyAction T) (t : T) : ℤ :=
  match a with
  | .SendKey d => if d = t then 1 else 0
  | .StopKey d => if d = t then -1 else 0
  | _ => 0

/-- Balance of code `t` over a `KeyActionSet`. -/
def KeyActionSet.bal {T : Type} [DecidableEq T] (s : KeyActionSet T) (t : T) :
    ℤ :=
  (s.get_actions.map (fun a => a.bal t)).sum

/-- Balance of an optional emission. -/
def emitBal {T : Type} [DecidableEq T] :
    Option (KeyActionSet T) → T → ℤ
  | none, _ => 0
  | some s, t => s.bal t

/-- Balance of code `t` over a pending queue of tagged action sets. -/
def pendingBal {Id T : Type} [DecidableEq T]
    (q : List (Id × KeyActionSet T)) (t : T) : ℤ :=
  (q.map (fun p => p.2.bal t)).sum

/-- Balance of code `t` over a cleanup list. -/
def cleanupBal {T : Type} [DecidableEq T] (l : List (KeyActionSet T))
    (t : T) : ℤ :=
  (l.map (fun s => s.bal t)).sum

/-- Net send/stop surplus a live machine has already emitted; every path to
its disposal emits the exact inverse of this balance (its future emissions
plus cleanup sum to the negation). -/
def Machine.credit {Id T : Type} [DecidableEq T] (m : Machine Id T) (t : T) :
    ℤ :=
  match m with
  | .tap m => if m.finished then 0 else m.conf.tap.bal t
  | .hold m =>
      match m.state with
      | .Hold => m.key_conf.hold.bal t
      | .Released => m.key_conf.tap.bal t
      | _ => 0
  | .eagerHold m =>
      match m.state with
      | .Waiting => m.key_conf.hold.bal t
      | .Hold => m.key_conf.hold.bal t
      | _ => 0

/-- Total credit of the machine collection. -/
def totalCredit {Id T : Type} [DecidableEq T]
    (machines : List (Id × Machine Id T)) (t : T) : ℤ :=
  (machines.map (fun p => p.2.credit t)).sum

/-- Well-formedness of a live machine reachable through the orchestrator:
its state/cleanup combination is one the transition functions produce. -/
def MachineOK {Id T : Type} : Machine Id T → Prop
  | .tap m => m.cleanup_actions = [m.conf.tap.invert]
  | .hold m =>
      (m.state = .Waiting ∧ m.cleanup_actions = [KeyActionSet.deflt]) ∨
      (m.state = .Hold ∧ m.cleanup_actions = [m.key_conf.hold.invert]) ∨
      (m.state = .Released ∧ m.cleanup_actions = [m.key_conf.tap.invert])
  | .eagerHold m =>
      (m.state = .Waiting ∨ m.state = .Hold ∨ m.state = .Released) ∧
      m.cleanup_actions = [m.key_conf.hold.invert]

/-- Invariant of orchestrator states reachable after a full `transition`
call: the creation-order list carries exactly the machine-map keys without
duplicates, and every stored machine is live, watches the key it is stored
under, and is well-formed. -/
def KbInv {Id T : Type} (kb : SMKeyboard Id T) : Prop :=
  kb.state_machine_order = kb.state_machines.map Prod.fst ∧
  kb.state_machine_order.Nodup ∧
  ∀ p ∈ kb.state_machines,
    p.2.get_watched_key = p.1 ∧ p.2.is_finished = false ∧ MachineOK p.2

/-- Decidable trace condition: no `KeyPress(id)` of the sequence arrives
while a machine for `id` is live ("duplicate press" in spec §7). -/
def noDupPressRun {Id T : Type} [DecidableEq Id] (mapper : Mapper Id T)
    (kb : SMKeyboard Id T) : List (Nat × Event Id) → Bool
  | [] => true
  | (now, event) :: rest =>
      (match event with
       | .KeyPress id => (assocGet kb.state_machines id).isNone
       | _ => true) &&
      (match kb.transition mapper now event with
       | .ok r => noDupPressRun mapper r.1 rest
       | .error _ => true)

/-- Removal of the topmost occurrence of a layer id, written after the
spec's words for the corrected `PopLayer` semantics (§9: "remove the
topmost occurrence of the specified `LayerId`"; the top of the stack is its
last element).  This is the spec-side definition that the code's
`handle_key_action` is compared against. -/
def popTopmostOccurrence_spec (stack : List LayerId) (l : LayerId) :
    List LayerId :=
  ((stack.reverse).erase l).reverse

/-- Seed map of spec §8: key 2 → `Tap{tap:{PushLayer(1)}}`, layer-1 key 3 →
`Tap{tap:{SendKey(33)}}`, layer-0 key 3 → `Tap{tap:{SendKey(30)}}`, key 1 →
`Hold{tap:{SendKey(10)}, hold:{SendKey(20)}}`. -/
def seedMapper : Mapper Nat Nat := fun layer key =>
  if layer = 0 ∧ key = 1 then
    some (KeyConf.Hold ⟨.Single (.SendKey 10), .Single (.SendKey 20)⟩)
  else if layer = 0 ∧ key = 2 then
    some (KeyConf.Tap ⟨.Single (.PushLayer 1)⟩)
  else if layer = 1 ∧ key = 3 then
    some (KeyConf.Tap ⟨.Single (.SendKey 33)⟩)
  else if layer = 0 ∧ key = 3 then
    some (KeyConf.Tap ⟨.Single (.SendKey 30)⟩)
  else none

/-- Seed settings of spec §8: `hold_ksm_delay = 2`, other thresholds 100. -/
def seedSettings : SMKeyboardSettings :=
  { SMKeyboardSettings.deflt with hold_ksm_delay := 2 }

/-- Mapper sending key 1 to a plain Tap of code 10 (used for the duplicate
press scenario). -/
def tapMapper : Mapper Nat Nat := fun _ key =>
  if key = 1 then some (KeyConf.Tap ⟨.Single (.SendKey 10)⟩) else none

/-- Seed map of spec §8(d): key 1 → `EagerHold{tap:{SendKey(10)},
hold:{SendKey(20)}}`. -/
def eagerMapper : Mapper Nat Nat := fun _ key =>
  if key = 1 then
    some (KeyConf.EagerHold ⟨.Single (.SendKey 10), .Single (.SendKey 20)⟩)
  else none

/-- A live Tap machine watching key 1 with tap set `{SendKey(10)}`. -/
def tapM : TapKSM Nat Nat := TapKSM.new 1 ⟨.Single (.SendKey 10)⟩

/-- A finished Tap machine, boxed. -/
def finishedM : Machine Nat Nat :=
  .tap { finished := true
         watched_key := 1
         conf := ⟨.Single (.SendKey 10)⟩
         cleanup_actions := [KeyActionSet.Single (KeyAction.StopKey 10)] }

/-- A fresh engine with default layer 3, for the layer push/pop witness. -/
def c10kb : SMKeyboard Nat Nat := SMKeyboard.new 3 SMKeyboardSettings.deflt

/-- Engine state after KeyPress(1) on the Tap seed map: one live Tap
machine for key 1. -/
def c8kbf : SMKeyboard Nat Nat :=
  { default_layer := 0
    layer_stack := []
    state_machines := [(1, Machine.tap (TapKSM.new 1 ⟨.Single (.SendKey 10)⟩))]
    state_machine_order := [1]
    settings := seedSettings }

/-! # Theorems -/

/-! ## Small facts about the action model -/

theorem handle_key_action_default_layer {Id T : Type} (kb : SMKeyboard Id T)
    (a : KeyAction T) :
    (kb.handle_key_action a).1.default_layer = kb.default_layer := by
  cases a <;> rfl

theorem handle_key_action_machines {Id T : Type} (kb : SMKeyboard Id T)
    (a : KeyAction T) :
    (kb.handle_key_action a).1.state_machines = kb.state_machines := by
  cases a <;> rfl

theorem handle_key_action_order {Id T : Type} (kb : SMKeyboard Id T)
    (a : KeyAction T) :
    (kb.handle_key_action a).1.state_machine_order =
      kb.state_machine_order := by
  cases a <;> rfl

theorem handle_key_action_stack_nonlayer {Id T : Type} (kb : SMKeyboard Id T)
    {a : KeyAction T} (h : a.is_layer_action = false) :
    (kb.handle_key_action a).1.layer_stack = kb.layer_stack := by
  cases a <;> simp_all [KeyAction.is_layer_action, SMKeyboard.handle_key_action]

theorem applyKeyActions_default_layer {Id T : Type} (kb : SMKeyboard Id T)
    (l : List (KeyAction T)) :
    (applyKeyActions kb l).1.default_layer = kb.default_layer := by
  induction l generalizing kb with
  | nil => rfl
  | cons a rest ih =>
      simp only [applyKeyActions]
      split <;> rw [ih, handle_key_action_default_layer]

theorem applyKeyActions_stack_nonlayer {Id T : Type} (kb : SMKeyboard Id T)
    {l : List (KeyAction T)} (h : ∀ a ∈ l, a.is_layer_action = false) :
    (applyKeyActions kb l).1.layer_stack = kb.layer_stack := by
  induction l generalizing kb with
  | nil => rfl
  | cons a rest ih =>
      have ha := h a (List.mem_cons_self a rest)
      have hrest : ∀ b ∈ rest, b.is_layer_action = false :=
        fun b hb => h b (List.mem_cons_of_mem a hb)
      simp only [applyKeyActions]
      split <;> rw [ih _ hrest, handle_key_action_stack_nonlayer _ ha]

/-! ## Claim theorems (first group) -/

/-- C7: `KeyAction.invert` and `KeyActionSet.invert` are involutions; they
map `SendKey↔StopKey`, `PushLayer↔PopLayer`, `NoOp↔NoOp` pointwise and
preserve the cardinality and member order of an action set (both are plain
functions of their argument in this embedding, hence pure). -/
theorem C7_invert_involution :
    (∀ (T : Type) (a : KeyAction T), a.invert.invert = a) ∧
    (∀ (T : Type) (s : KeyActionSet T), s.invert.invert = s) ∧
    (∀ (T : Type) (d : T),
        (KeyAction.SendKey d).invert = KeyAction.StopKey d ∧
        (KeyAction.StopKey d).invert = KeyAction.SendKey d) ∧
    (∀ (T : Type) (l : LayerId),
        (KeyAction.PushLayer (T := T) l).invert = KeyAction.PopLayer l ∧
        (KeyAction.PopLayer (T := T) l).invert = KeyAction.PushLayer l) ∧
    (∀ (T : Type), (KeyAction.NoOp (T := T)).invert = KeyAction.NoOp) ∧
    (∀ (T : Type) (s : KeyActionSet T),
        s.invert.get_actions = s.get_actions.map KeyAction.invert) ∧
    (∀ (T : Type) (s : KeyActionSet T),
        s.invert.get_actions.length = s.get_actions.length) := by
  have hact : ∀ (T : Type) (a : KeyAction T), a.invert.invert = a := by
    intro T a; cases a <;> rfl
  refine ⟨hact, fun T s => ?_, fun T d => ⟨rfl, rfl⟩,
    fun T l => ⟨rfl, rfl⟩, fun T => rfl, fun T s => ?_, fun T s => ?_⟩
  · cases s <;> simp [KeyActionSet.invert, hact]
  · cases s <;> rfl
  · cases s <;> rfl

/-- C5: the code's `PopLayer` handling pops the top of the layer stack
regardless of the carried layer id.  On stack `[1, 2]` (top `2`),
`PopLayer(1)` leaves `[1]`, whereas removing the topmost occurrence of
layer `1` — the claim's semantics, and the behavior documented on
`KeyAction::PopLayer` — leaves `[2]`. -/
theorem C5_pop_layer_ignores_id :
    (({ (SMKeyboard.new 0 SMKeyboardSettings.deflt : SMKeyboard Nat Nat) with
          layer_stack := [1, 2] }.handle_key_action
        (KeyAction.PopLayer 1)).1.layer_stack = [1]) ∧
    popTopmostOccurrence_spec [1, 2] 1 = [2] ∧
    ([1] : List LayerId) ≠ [2] :=
  ⟨rfl, by decide, by decide⟩

/-- C1: `SMKeyboard::transition` is not total on its input domain: a
`KeyPress` of a key the mapper sends to `KeyConf::DoubleTap` (or
`KeyConf::DoubleTapHold`) reaches a `todo!()` arm of
`SMKeyboard::build_machine` and aborts, modelled as `Except.error ()`. -/
theorem C1_double_tap_press_aborts :
    (SMKeyboard.transition
        (fun _ key =>
          if key = 1 then
            some (KeyConf.DoubleTap
              ⟨.Single (.SendKey 10), .Single (.SendKey 11)⟩)
          else none)
        (SMKeyboard.new 0 SMKeyboardSettings.deflt : SMKeyboard Nat Nat) 0
        (Event.KeyPress 1) = Except.error ()) ∧
    (SMKeyboard.transition
        (fun _ key =>
          if key = 1 then
            some (KeyConf.DoubleTapHold
              ⟨.Single (.SendKey 10), .Single (.SendKey 11),
               .Single (.SendKey 12)⟩)
          else none)
        (SMKeyboard.new 0 SMKeyboardSettings.deflt : SMKeyboard Nat Nat) 0
        (Event.KeyPress 1) = Except.error ()) :=
  ⟨rfl, rfl⟩

/-- C4: with default layer 0 and the §8 seed map, the event sequence
KeyPress(2), KeyPress(3), KeyRelease(3), KeyRelease(2) produces exactly
SendCode(33) then Stop(33), and after the final event the layer stack is
empty. -/
theorem C4_layer_push_pop_scenario :
    (SMKeyboard.run seedMapper (SMKeyboard.new 0 seedSettings)
        [(0, .KeyPress 2), (0, .KeyPress 3), (0, .KeyRelease 3),
         (0, .KeyRelease 2)]).map
      (fun r => (r.2, r.1.layer_stack))
    = .ok ([Action.SendCode 33, Action.Stop 33], []) := rfl

/-- C3: while a Tap machine is live, every press of its watched key
re-emits the configured tap set and leaves the machine unchanged; its
cleanup actions are always exactly the one precomputed inverse of the tap
set; consequently KeyPress(1), KeyPress(1), KeyRelease(1) on a Tap key with
tap set `{SendKey(10)}` outputs SendCode(10) twice but Stop(10) once. -/
theorem C3_tap_duplicate_press {Id T : Type} [DecidableEq Id] :
    (∀ (m : TapKSM Id T), m.is_finished = false →
        m.transition (Event.KeyPress m.watched_key) = (m, some m.conf.tap)) ∧
    (∀ (watched : Id) (conf : TapKeyConf T),
        (TapKSM.new watched conf).get_cleanup_actions = [conf.tap.invert]) ∧
    (∀ (m : TapKSM Id T) (event : Event Id),
        ((m.transition event).1).get_cleanup_actions =
          m.get_cleanup_actions) ∧
    ((SMKeyboard.run tapMapper (SMKeyboard.new 0 seedSettings)
        [(0, .KeyPress 1), (0, .KeyPress 1), (0, .KeyRelease 1)]).map
        (fun r => r.2)
      = .ok [Action.SendCode 10, Action.SendCode 10, Action.Stop 10]) := by
  refine ⟨fun m h => ?_, fun watched conf => rfl, fun m event => ?_, rfl⟩
  · simp [TapKSM.transition, h]
  · cases event with
    | KeyPress key_id =>
        by_cases hf : m.is_finished <;> by_cases hk : key_id = m.watched_key <;>
          simp [TapKSM.transition, TapKSM.get_cleanup_actions, hf, hk]
    | KeyRelease key_id =>
        by_cases hf : m.is_finished <;> by_cases hk : key_id = m.watched_key <;>
          simp [TapKSM.transition, TapKSM.get_cleanup_actions, hf, hk]
    | Poll =>
        by_cases hf : m.is_finished <;>
          simp [TapKSM.transition, TapKSM.get_cleanup_actions, hf]

/-- C3 witness: a concrete live Tap machine re-emits its tap set on a press
of its watched key. -/
theorem C3_witness :
    tapM.is_finished = false ∧
    tapM.transition (Event.KeyPress tapM.watched_key) =
      (tapM, some tapM.conf.tap) :=
  ⟨rfl, C3_tap_duplicate_press.1 tapM rfl⟩

/-- C9: once a machine reports finished, `transition` returns `None` and
leaves the machine (hence its cleanup actions) unchanged on this and every
later call, and `is_finished` stays true. -/
theorem C9_finished_is_terminal {Id T : Type} [DecidableEq Id]
    (m : Machine Id T) (h : m.is_finished = true) :
    (∀ (now : Nat) (event : Event Id), m.transition now event = (m, none)) ∧
    (∀ evs, m.runMachine evs = m ∧ (m.runMachine evs).is_finished = true) := by
  have hstep : ∀ (now : Nat) (event : Event Id),
      m.transition now event = (m, none) := by
    intro now event
    cases m with
    | tap m =>
        have : m.is_finished = true := h
        simp [Machine.transition, TapKSM.transition, this]
    | hold m =>
        have : m.is_finished = true := h
        simp [Machine.transition, HoldKSM.transition, this]
    | eagerHold m =>
        have : m.is_finished = true := h
        simp [Machine.transition, EagerHoldKSM.transition, this]
  refine ⟨hstep, fun evs => ?_⟩
  induction evs with
  | nil => exact ⟨rfl, h⟩
  | cons p rest ih =>
      obtain ⟨now, event⟩ := p
      simpa [Machine.runMachine, hstep] using ih

/-- C9 witness: a concrete finished machine is inert. -/
theorem C9_witness :
    finishedM.is_finished = true ∧
    finishedM.transition 0 Event.Poll = (finishedM, none) :=
  ⟨rfl, (C9_finished_is_terminal finishedM rfl).1 0 Event.Poll⟩

/-- C6: with key 1 mapped to `EagerHold{tap:{SendKey(10)},
hold:{SendKey(20)}}` and the hold threshold not yet expired at the release,
the sequence KeyPress(1), KeyRelease(1), Poll produces SendCode(20),
Stop(20), SendCode(10), Stop(10) across the three calls, and the machine
for key 1 is dropped at the end of the Poll call. -/
theorem C6_eager_hold_early_release (t0 t1 t2 : Nat)
    (h : t1 - t0 < seedSettings.hold_ksm_delay) :
    (SMKeyboard.run eagerMapper (SMKeyboard.new 0 seedSettings)
        [(t0, .KeyPress 1), (t1, .KeyRelease 1), (t2, .Poll)]).map
      (fun r => (r.2, r.1.state_machines, r.1.state_machine_order))
    = .ok ([Action.SendCode 20, Action.Stop 20, Action.SendCode 10,
            Action.Stop 10], [], []) := by
  have h2 : ¬ ((2 : Nat) ≤ t1 - t0) := by
    simpa [seedSettings, SMKeyboardSettings.deflt] using Nat.not_le.mpr h
  simp [SMKeyboard.run, SMKeyboard.transition,
    SMKeyboard.handle_key_press_event, eagerMapper, SMKeyboard.new,
    seedSettings, SMKeyboardSettings.deflt, SMKeyboard.build_machine,
    EagerHoldKSM.new, stepMachines, assocGet, assocSet, Machine.transition,
    EagerHoldKSM.transition, EagerHoldKSM.is_finished,
    Event.is_press_of_other, collectCleanups, Machine.is_finished,
    applyPending, applyKeyActions, SMKeyboard.handle_key_action,
    KeyActionSet.get_actions, KeyActionSet.invert, KeyAction.invert,
    Machine.get_cleanup_actions, EagerHoldKSM.get_cleanup_actions,
    SMKeyboard.drop_finished_machines, SMKeyboard.get_active_layer,
    Event.is_key_press, Event.get_key_id, h2, KeyActionSet.deflt,
    KeyAction.deflt, Except.map]

/-- C6 witness: the scenario at concrete times 0, 1, 1. -/
theorem C6_witness :
    (1 - 0 < seedSettings.hold_ksm_delay) ∧
    (SMKeyboard.run eagerMapper (SMKeyboard.new 0 seedSettings)
        [(0, .KeyPress 1), (1, .KeyRelease 1), (1, .Poll)]).map
      (fun r => (r.2, r.1.state_machines, r.1.state_machine_order))
    = .ok ([Action.SendCode 20, Action.Stop 20, Action.SendCode 10,
            Action.Stop 10], [], []) :=
  ⟨by decide, C6_eager_hold_early_release 0 1 1 (by decide)⟩

/-- C10: applying `PushLayer(l)` and later `PopLayer(l)` with only
non-layer key actions applied in between leaves the active layer (top of
stack, or default layer when the stack is empty) equal to its value before
the push. -/
theorem C10_push_pop_restores_active_layer {Id T : Type}
    (kb : SMKeyboard Id T) (l : LayerId) (mid : List (KeyAction T))
    (hmid : ∀ a ∈ mid, a.is_layer_action = false) :
    ((applyKeyActions (kb.handle_key_action (KeyAction.PushLayer l)).1
        mid).1.handle_key_action
      (KeyAction.PopLayer l)).1.get_active_layer = kb.get_active_layer := by
  set kb1 := (kb.handle_key_action (KeyAction.PushLayer l)).1 with hkb1
  set kb2 := (applyKeyActions kb1 mid).1 with hkb2
  have hstack1 : kb1.layer_stack = kb.layer_stack ++ [l] := rfl
  have hdfl1 : kb1.default_layer = kb.default_layer := rfl
  have hstack2 : kb2.layer_stack = kb.layer_stack ++ [l] := by
    rw [hkb2, applyKeyActions_stack_nonlayer _ hmid, hstack1]
  have hdfl2 : kb2.default_layer = kb.default_layer := by
    rw [hkb2, applyKeyActions_default_layer, hdfl1]
  show (kb2.handle_key_action (KeyAction.PopLayer l)).1.get_active_layer =
    kb.get_active_layer
  simp [SMKeyboard.handle_key_action, SMKeyboard.get_active_layer, hstack2,
    hdfl2, List.dropLast_concat]

/-! ## Balance lemmas for the send/stop accounting -/

theorem actBal_invert {T : Type} [DecidableEq T] (a : KeyAction T)
    (t : T) : a.invert.bal t = -a.bal t := by
  cases a <;> simp [KeyAction.invert, KeyAction.bal] <;> split <;> simp

theorem setBal_invert {T : Type} [DecidableEq T]
    (s : KeyActionSet T) (t : T) : s.invert.bal t = -s.bal t := by
  cases s <;>
    simp [KeyActionSet.invert, KeyActionSet.bal, KeyActionSet.get_actions,
      actBal_invert] <;> ring

theorem outBal_nil {T : Type} [DecidableEq T] (t : T) :
    outBal ([] : List (Action T)) t = 0 := rfl

theorem outBal_cons {T : Type} [DecidableEq T] (a : Action T)
    (l : List (Action T)) (t : T) :
    outBal (a :: l) t = a.bal t + outBal l t := rfl

theorem outBal_append {T : Type} [DecidableEq T] (l1 l2 : List (Action T))
    (t : T) : outBal (l1 ++ l2) t = outBal l1 t + outBal l2 t := by
  simp [outBal]

theorem pendingBal_append {Id T : Type} [DecidableEq T]
    (q1 q2 : List (Id × KeyActionSet T)) (t : T) :
    pendingBal (q1 ++ q2) t = pendingBal q1 t + pendingBal q2 t := by
  simp [pendingBal]

theorem totalCredit_append {Id T : Type} [DecidableEq T]
    (l1 l2 : List (Id × Machine Id T)) (t : T) :
    totalCredit (l1 ++ l2) t = totalCredit l1 t + totalCredit l2 t := by
  simp [totalCredit]

/-! ## Per-machine step lemmas -/

theorem machine_any_step_ok {Id T : Type} [DecidableEq Id]
    {m : Machine Id T} (hok : MachineOK m) (hl : m.is_finished = false)
    (now : Nat) (event : Event Id) :
    ((m.transition now event).1).get_watched_key = m.get_watched_key ∧
    (((m.transition now event).1).is_finished = false →
      MachineOK (m.transition now event).1) := by
  cases m with
  | tap m =>
      have hf : m.is_finished = false := hl
      cases event with
      | KeyPress k =>
          by_cases hk : k = m.watched_key <;>
            simp_all [Machine.transition, TapKSM.transition, MachineOK,
              Machine.get_watched_key, Machine.is_finished]
      | KeyRelease k =>
          by_cases hk : k = m.watched_key <;>
            simp_all [Machine.transition, TapKSM.transition, MachineOK,
              Machine.get_watched_key, Machine.is_finished,
              TapKSM.is_finished]
      | Poll =>
          simp_all [Machine.transition, TapKSM.transition, MachineOK,
            Machine.get_watched_key, Machine.is_finished]
  | hold m =>
      rcases hok with ⟨hst, hcl⟩ | ⟨hst, hcl⟩ | ⟨hst, hcl⟩ <;>
        (simp only [Machine.transition, HoldKSM.transition,
           HoldKSM.is_finished, hst, Machine.get_watched_key,
           Machine.is_finished]
         repeat' split) <;>
        simp_all [MachineOK, HoldKSM.is_finished]
  | eagerHold m =>
      obtain ⟨hst, hcl⟩ := hok
      rcases hst with hst | hst | hst <;>
        (simp only [Machine.transition, EagerHoldKSM.transition,
           EagerHoldKSM.is_finished, hst, Machine.get_watched_key,
           Machine.is_finished]
         repeat' split) <;>
        simp_all [MachineOK, EagerHoldKSM.is_finished]

theorem machine_live_step {Id T : Type} [DecidableEq Id] [DecidableEq T]
    {m : Machine Id T} (hok : MachineOK m) (hl : m.is_finished = false)
    (now : Nat) (event : Event Id)
    (hp : ∀ k, event = Event.KeyPress k → k ≠ m.get_watched_key) (t : T) :
    (((m.transition now event).1).is_finished = false →
      ((m.transition now event).1).credit t =
        m.credit t + emitBal (m.transition now event).2 t) ∧
    (((m.transition now event).1).is_finished = true →
      emitBal (m.transition now event).2 t +
        cleanupBal ((m.transition now event).1).get_cleanup_actions t +
        m.credit t = 0) := by
  cases m with
  | tap m =>
      have hf : m.is_finished = false := hl
      cases event with
      | KeyPress k =>
          have hk : k ≠ m.watched_key :=
            hp k rfl
          simp_all [Machine.transition, TapKSM.transition, Machine.credit,
            Machine.is_finished, TapKSM.is_finished, emitBal, cleanupBal,
            Machine.get_cleanup_actions, TapKSM.get_cleanup_actions, MachineOK]
      | KeyRelease k =>
          by_cases hk : k = m.watched_key <;>
            simp_all [Machine.transition, TapKSM.transition, Machine.credit,
              Machine.is_finished, TapKSM.is_finished, emitBal, cleanupBal,
              Machine.get_cleanup_actions, TapKSM.get_cleanup_actions,
              MachineOK, setBal_invert]
      | Poll =>
          simp_all [Machine.transition, TapKSM.transition, Machine.credit,
            Machine.is_finished, TapKSM.is_finished, emitBal, cleanupBal,
            MachineOK]
  | hold m =>
      rcases hok with ⟨hst, hcl⟩ | ⟨hst, hcl⟩ | ⟨hst, hcl⟩ <;>
        (simp only [Machine.transition, HoldKSM.transition,
           HoldKSM.is_finished, hst, Machine.credit, Machine.is_finished,
           Machine.get_cleanup_actions]
         repeat' split) <;>
        simp_all [Machine.credit, emitBal, cleanupBal, HoldKSM.is_finished,
          HoldKSM.get_cleanup_actions, setBal_invert]
  | eagerHold m =>
      obtain ⟨hst, hcl⟩ := hok
      rcases hst with hst | hst | hst <;>
        (simp only [Machine.transition, EagerHoldKSM.transition,
           EagerHoldKSM.is_finished, hst, Machine.credit,
           Machine.is_finished, Machine.get_cleanup_actions]
         repeat' split) <;>
        simp_all [Machine.credit, emitBal, cleanupBal,
          EagerHoldKSM.is_finished, EagerHoldKSM.get_cleanup_actions,
          setBal_invert]

theorem machine_creation_step {Id T : Type} [DecidableEq Id] [DecidableEq T]
    {kb : SMKeyboard Id T} {key_id : Id} {conf : KeyConf T} {now : Nat}
    {machine : Machine Id T}
    (h : kb.build_machine key_id conf now = .ok machine) (now2 : Nat) :
    machine.get_watched_key = key_id ∧
    machine.is_finished = false ∧
    ((machine.transition now2 (Event.KeyPress key_id)).1).is_finished =
      false ∧
    MachineOK (machine.transition now2 (Event.KeyPress key_id)).1 ∧
    ((machine.transition now2 (Event.KeyPress key_id)).1).get_watched_key =
      key_id ∧
    (∀ t : T, ((machine.transition now2 (Event.KeyPress key_id)).1).credit t =
        emitBal (machine.transition now2 (Event.KeyPress key_id)).2 t) := by
  cases conf with
  | Tap conf =>
      simp only [SMKeyboard.build_machine, Except.ok.injEq] at h
      subst h
      simp [Machine.transition, TapKSM.transition, TapKSM.new,
        TapKSM.is_finished, Machine.is_finished, MachineOK,
        Machine.get_watched_key, Machine.credit, emitBal]
  | Hold conf =>
      simp only [SMKeyboard.build_machine, Except.ok.injEq] at h
      subst h
      simp [Machine.transition, HoldKSM.transition, HoldKSM.new,
        HoldKSM.is_finished, Machine.is_finished, MachineOK,
        Machine.get_watched_key, Machine.credit, emitBal]
  | EagerHold conf =>
      simp only [SMKeyboard.build_machine, Except.ok.injEq] at h
      subst h
      simp [Machine.transition, EagerHoldKSM.transition, EagerHoldKSM.new,
        EagerHoldKSM.is_finished, Machine.is_finished, MachineOK,
        Machine.get_watched_key, Machine.credit, emitBal]
  | DoubleTap conf => simp [SMKeyboard.build_machine] at h
  | DoubleTapHold conf => simp [SMKeyboard.build_machine] at h

/-! ## Association-list and orchestrator-phase lemmas -/

theorem assocGet_eq_none_iff {Id α : Type} [DecidableEq Id]
    (l : List (Id × α)) (id : Id) :
    assocGet l id = none ↔ id ∉ l.map Prod.fst := by
  induction l with
  | nil => simp [assocGet]
  | cons p rest ih =>
      by_cases h : p.1 = id
      · simp [assocGet, h]
      · have h2 : ¬ id = p.1 := fun e => h e.symm
        simp [assocGet, h, ih, h2]

theorem handle_key_press_event_not_press {Id T : Type} [DecidableEq Id]
    (mapper : Mapper Id T) (kb : SMKeyboard Id T) (now : Nat)
    {event : Event Id} (h : event.is_key_press = false) :
    SMKeyboard.handle_key_press_event mapper kb now event = .ok kb := by
  simp [SMKeyboard.handle_key_press_event, h]

theorem handle_key_press_event_existing {Id T : Type} [DecidableEq Id]
    (mapper : Mapper Id T) (kb : SMKeyboard Id T) (now : Nat) {id : Id}
    (h : (assocGet kb.state_machines id).isSome = true) :
    SMKeyboard.handle_key_press_event mapper kb now (Event.KeyPress id) =
      .ok kb := by
  cases hm : assocGet kb.state_machines id with
  | none => rw [hm] at h; simp at h
  | some m =>
      simp [SMKeyboard.handle_key_press_event, Event.is_key_press,
        Event.get_key_id, hm]

theorem handle_key_press_event_spec {Id T : Type} [DecidableEq Id]
    (mapper : Mapper Id T) (kb : SMKeyboard Id T) (now : Nat)
    (event : Event Id) :
    (SMKeyboard.handle_key_press_event mapper kb now event = .ok kb) ∨
    (∃ id conf machine, event = Event.KeyPress id ∧
      assocGet kb.state_machines id = none ∧
      mapper kb.get_active_layer id = some conf ∧
      kb.build_machine id conf now = .ok machine ∧
      SMKeyboard.handle_key_press_event mapper kb now event =
        .ok { kb with
                state_machines := kb.state_machines ++ [(id, machine)]
                state_machine_order := kb.state_machine_order ++ [id] }) ∨
    (SMKeyboard.handle_key_press_event mapper kb now event = .error ()) := by
  cases event with
  | KeyRelease id => exact Or.inl (handle_key_press_event_not_press _ _ _ rfl)
  | Poll => exact Or.inl (handle_key_press_event_not_press _ _ _ rfl)
  | KeyPress id =>
      cases hm : assocGet kb.state_machines id with
      | some m =>
          exact Or.inl (handle_key_press_event_existing _ _ _ (by simp [hm]))
      | none =>
          cases hmap : mapper kb.get_active_layer id with
          | none =>
              refine Or.inl ?_
              simp [SMKeyboard.handle_key_press_event, Event.is_key_press,
                Event.get_key_id, hm, hmap]
          | some conf =>
              cases hb : kb.build_machine id conf now with
              | error e =>
                  refine Or.inr (Or.inr ?_)
                  simp [SMKeyboard.handle_key_press_event, Event.is_key_press,
                    Event.get_key_id, hm, hmap, hb]
              | ok machine =>
                  refine Or.inr (Or.inl ⟨id, conf, machine, rfl, hm, hmap, hb,
                    ?_⟩)
                  simp [SMKeyboard.handle_key_press_event, Event.is_key_press,
                    Event.get_key_id, hm, hmap, hb]

theorem stepMachines_skip {Id T : Type} [DecidableEq Id] {k : Id}
    {m : Machine Id T} {machines : List (Id × Machine Id T)}
    {order : List Id} {now : Nat} {event : Event Id} (hk : k ∉ order) :
    stepMachines ((k, m) :: machines) order now event =
      (stepMachines machines order now event).map
        (fun r => ((k, m) :: r.1, r.2)) := by
  induction order generalizing machines with
  | nil => rfl
  | cons id rest ih =>
      have hne : k ≠ id := fun h => hk (h ▸ List.mem_cons_self id rest)
      have hk2 : k ∉ rest := fun h => hk (List.mem_cons_of_mem _ h)
      simp only [stepMachines, assocGet, if_neg hne, assocSet]
      cases hg : assocGet machines id with
      | none => rfl
      | some mm =>
          simp only [ih hk2]
          cases hs : stepMachines (assocSet machines id
              (mm.transition now event).1) rest now event with
          | error e => rfl
          | ok r => cases h2 : (mm.transition now event).2 <;> rfl

theorem stepMachines_eq {Id T : Type} [DecidableEq Id]
    (machines : List (Id × Machine Id T)) (now : Nat) (event : Event Id)
    (hnd : (machines.map Prod.fst).Nodup) :
    stepMachines machines (machines.map Prod.fst) now event =
      .ok (machines.map (fun p => (p.1, (p.2.transition now event).1)),
           machines.filterMap
             (fun p =>
               ((p.2.transition now event).2).map (fun s => (p.1, s)))) := by
  induction machines with
  | nil => rfl
  | cons p rest ih =>
      obtain ⟨k, m⟩ := p
      simp only [List.map_cons] at hnd
      have hk : k ∉ rest.map Prod.fst := (List.nodup_cons.mp hnd).1
      have hnd2 := (List.nodup_cons.mp hnd).2
      have hga : assocGet ((k, m) :: rest) k = some m := by simp [assocGet]
      have hsa : assocSet ((k, m) :: rest) k ((m.transition now event).1) =
          (k, (m.transition now event).1) :: rest := by simp [assocSet]
      simp only [List.map_cons, stepMachines, hga, hsa]
      rw [stepMachines_skip hk, ih hnd2]
      cases h2 : (m.transition now event).2 <;>
        simp [List.filterMap_cons, h2, Except.map]

theorem applyKeyActions_machines {Id T : Type} (kb : SMKeyboard Id T)
    (l : List (KeyAction T)) :
    (applyKeyActions kb l).1.state_machines = kb.state_machines := by
  induction l generalizing kb with
  | nil => rfl
  | cons a rest ih =>
      simp only [applyKeyActions]
      split <;> rw [ih, handle_key_action_machines]

theorem applyKeyActions_order {Id T : Type} (kb : SMKeyboard Id T)
    (l : List (KeyAction T)) :
    (applyKeyActions kb l).1.state_machine_order = kb.state_machine_order := by
  induction l generalizing kb with
  | nil => rfl
  | cons a rest ih =>
      simp only [applyKeyActions]
      split <;> rw [ih, handle_key_action_order]

theorem applyPending_machines {Id T : Type} (kb : SMKeyboard Id T)
    (q : List (Id × KeyActionSet T)) :
    (applyPending kb q).1.state_machines = kb.state_machines := by
  induction q generalizing kb with
  | nil => rfl
  | cons p rest ih =>
      obtain ⟨id, s⟩ := p
      simp only [applyPending]
      rw [ih, applyKeyActions_machines]

theorem applyPending_order {Id T : Type} (kb : SMKeyboard Id T)
    (q : List (Id × KeyActionSet T)) :
    (applyPending kb q).1.state_machine_order = kb.state_machine_order := by
  induction q generalizing kb with
  | nil => rfl
  | cons p rest ih =>
      obtain ⟨id, s⟩ := p
      simp only [applyPending]
      rw [ih, applyKeyActions_order]

theorem applyKeyActions_outBal {Id T : Type} [DecidableEq T]
    (kb : SMKeyboard Id T) (l : List (KeyAction T)) (t : T) :
    outBal (applyKeyActions kb l).2 t = (l.map (fun a => a.bal t)).sum := by
  induction l generalizing kb with
  | nil => simp [applyKeyActions, outBal]
  | cons a rest ih =>
      cases a <;>
        simp [applyKeyActions, SMKeyboard.handle_key_action, outBal_cons, ih,
          KeyAction.bal, Action.bal]

theorem applyPending_outBal {Id T : Type} [DecidableEq T]
    (kb : SMKeyboard Id T) (q : List (Id × KeyActionSet T)) (t : T) :
    outBal (applyPending kb q).2 t = pendingBal q t := by
  induction q generalizing kb with
  | nil => simp [applyPending, outBal, pendingBal]
  | cons p rest ih =>
      obtain ⟨id, s⟩ := p
      simp [applyPending, outBal_append, applyKeyActions_outBal, ih,
        pendingBal, KeyActionSet.bal]

theorem collectCleanups_append {Id T : Type}
    (l1 l2 : List (Id × Machine Id T)) :
    collectCleanups (l1 ++ l2) = collectCleanups l1 ++ collectCleanups l2 := by
  induction l1 with
  | nil => rfl
  | cons p rest ih =>
      obtain ⟨id, m⟩ := p
      by_cases h : m.is_finished <;> simp [collectCleanups, h, ih]

theorem pendingBal_tagged_cleanups {Id T : Type} [DecidableEq T] (id : Id)
    (l : List (KeyActionSet T)) (t : T) :
    pendingBal (l.map (fun s => (id, s))) t = cleanupBal l t := by
  simp [pendingBal, cleanupBal, List.map_map, Function.comp_def]

theorem pendingBal_nil {Id T : Type} [DecidableEq T] (t : T) :
    pendingBal ([] : List (Id × KeyActionSet T)) t = 0 := rfl

theorem pendingBal_cons {Id T : Type} [DecidableEq T]
    (p : Id × KeyActionSet T) (q : List (Id × KeyActionSet T)) (t : T) :
    pendingBal (p :: q) t = p.2.bal t + pendingBal q t := by
  simp [pendingBal]

theorem totalCredit_cons {Id T : Type} [DecidableEq T]
    (p : Id × Machine Id T) (l : List (Id × Machine Id T)) (t : T) :
    totalCredit (p :: l) t = p.2.credit t + totalCredit l t := by
  simp [totalCredit]

theorem collectCleanups_cons_finished {Id T : Type} {id : Id}
    {m : Machine Id T} {rest : List (Id × Machine Id T)}
    (h : m.is_finished = true) :
    collectCleanups ((id, m) :: rest) =
      m.get_cleanup_actions.map (fun s => (id, s)) ++ collectCleanups rest := by
  simp [collectCleanups, h]

theorem collectCleanups_cons_live {Id T : Type} {id : Id}
    {m : Machine Id T} {rest : List (Id × Machine Id T)}
    (h : m.is_finished = false) :
    collectCleanups ((id, m) :: rest) = collectCleanups rest := by
  simp [collectCleanups, h]

/-- Accounting across one broadcast-and-harvest pass over a machine list in
which every machine is live, well-formed and does not see a press of its own
watched key: the emitted sets plus the cleanups of the machines that finish
account exactly for the credit difference. -/
theorem list_accounting {Id T : Type} [DecidableEq Id] [DecidableEq T]
    (machines : List (Id × Machine Id T)) (now : Nat) (event : Event Id)
    (hyp : ∀ p ∈ machines, p.2.is_finished = false ∧ MachineOK p.2 ∧
      ∀ k, event = Event.KeyPress k → k ≠ p.2.get_watched_key) (t : T) :
    pendingBal (machines.filterMap
        (fun p => ((p.2.transition now event).2).map (fun s => (p.1, s)))) t +
      pendingBal (collectCleanups (machines.map
        (fun p => (p.1, (p.2.transition now event).1)))) t +
      totalCredit machines t =
    totalCredit ((machines.map
        (fun p => (p.1, (p.2.transition now event).1))).filter
      (fun p => !p.2.is_finished)) t := by
  induction machines with
  | nil => simp [pendingBal, collectCleanups, totalCredit]
  | cons p rest ih =>
      obtain ⟨hl, hok, hp⟩ := hyp p (List.mem_cons_self p rest)
      have ihh := ih (fun q hq => hyp q (List.mem_cons_of_mem _ hq))
      obtain ⟨hlive, hfin⟩ := machine_live_step hok hl now event hp t
      simp only [List.filterMap_cons, List.map_cons]
      by_cases hf : ((p.2.transition now event).1).is_finished = true
      · have heq := hfin hf
        have hneg : (!((p.2.transition now event).1).is_finished) = false := by
          simp [hf]
        cases h2 : (p.2.transition now event).2 with
        | none =>
            simp only [h2, emitBal] at heq
            simp only [h2, Option.map_none']
            rw [collectCleanups_cons_finished hf,
              List.filter_cons_of_neg (by simp [hneg]), pendingBal_append,
              pendingBal_tagged_cleanups, totalCredit_cons]
            linarith [ihh, heq]
        | some s =>
            simp only [h2, emitBal] at heq
            simp only [h2, Option.map_some']
            rw [collectCleanups_cons_finished hf,
              List.filter_cons_of_neg (by simp [hneg]), pendingBal_cons,
              pendingBal_append, pendingBal_tagged_cleanups, totalCredit_cons]
            linarith [ihh, heq]
      · have hf2 : ((p.2.transition now event).1).is_finished = false := by
          simpa using hf
        have heq := hlive hf2
        have hpos : (!((p.2.transition now event).1).is_finished) = true := by
          simp [hf2]
        cases h2 : (p.2.transition now event).2 with
        | none =>
            simp only [h2, emitBal] at heq
            simp only [h2, Option.map_none']
            rw [collectCleanups_cons_live hf2,
              List.filter_cons_of_pos (by simp [hpos]), totalCredit_cons,
              totalCredit_cons, heq]
            linarith [ihh]
        | some s =>
            simp only [h2, emitBal] at heq
            simp only [h2, Option.map_some']
            rw [collectCleanups_cons_live hf2,
              List.filter_cons_of_pos (by simp [hpos]), pendingBal_cons,
              totalCredit_cons, totalCredit_cons, heq]
            linarith [ihh]

theorem drop_finished_machines_eq {Id T : Type} [DecidableEq Id]
    (kb : SMKeyboard Id T)
    (hkeys : kb.state_machine_order = kb.state_machines.map Prod.fst)
    (hnd : (kb.state_machines.map Prod.fst).Nodup) :
    kb.drop_finished_machines.state_machines =
      kb.state_machines.filter (fun p => !p.2.is_finished) ∧
    kb.drop_finished_machines.state_machine_order =
      (kb.state_machines.filter (fun p => !p.2.is_finished)).map Prod.fst := by
  have hmem : ∀ p ∈ kb.state_machines,
      (p.1 ∈ (kb.state_machines.filter
          (fun q => q.2.is_finished)).map Prod.fst ↔
        p.2.is_finished = true) := by
    intro p hp
    constructor
    · intro hmem
      obtain ⟨q, hq, hq1⟩ := List.mem_map.mp hmem
      have hqf := List.mem_filter.mp hq
      have hqp : q = p := List.inj_on_of_nodup_map hnd hqf.1 hp hq1
      exact hqp ▸ hqf.2
    · intro hfin
      exact List.mem_map.mpr ⟨p, List.mem_filter.mpr ⟨hp, hfin⟩, rfl⟩
  have hcond : ∀ p ∈ kb.state_machines,
      (!((kb.state_machines.filter
          (fun q => q.2.is_finished)).map Prod.fst).contains p.1) =
        (!p.2.is_finished) := by
    intro p hp
    by_cases hf : p.2.is_finished = true
    · have hmm := (hmem p hp).mpr hf
      have hc : ((kb.state_machines.filter
          (fun q => q.2.is_finished)).map Prod.fst).contains p.1 = true :=
        List.elem_iff.mpr hmm
      rw [hc, hf]
    · have hf2 : p.2.is_finished = false := by simpa using hf
      have hmm : p.1 ∉ (kb.state_machines.filter
          (fun q => q.2.is_finished)).map Prod.fst :=
        fun hmem2 => hf ((hmem p hp).mp hmem2)
      have hc : ((kb.state_machines.filter
          (fun q => q.2.is_finished)).map Prod.fst).contains p.1 = false := by
        cases hcv : ((kb.state_machines.filter
            (fun q => q.2.is_finished)).map Prod.fst).contains p.1 with
        | false => rfl
        | true => exact absurd (List.elem_iff.mp hcv) hmm
      rw [hc, hf2]
  constructor
  · show kb.state_machines.filter _ = _
    exact List.filter_congr hcond
  · show kb.state_machine_order.filter _ = _
    rw [hkeys, List.filter_map]
    exact congrArg (List.map Prod.fst) (List.filter_congr hcond)

/-- Shared spec of the broadcast / harvest / apply / drop tail of one
`transition` call, for a post-creation state `kbB` whose machine entries
step soundly. -/
theorem transition_tail_spec {Id T : Type} [DecidableEq Id] [DecidableEq T]
    (kbB : SMKeyboard Id T) (now : Nat) (event : Event Id)
    (machines0 : List (Id × Machine Id T))
    (pend pendall : List (Id × KeyActionSet T))
    (hmachB : kbB.state_machines = machines0.map
      (fun p => (p.1, (p.2.transition now event).1)))
    (hordB : kbB.state_machine_order = machines0.map Prod.fst)
    (hpendall : pendall = pend ++ collectCleanups kbB.state_machines)
    (hndB : (machines0.map Prod.fst).Nodup)
    (hstep : ∀ p ∈ machines0,
        ((p.2.transition now event).1).get_watched_key = p.1 ∧
        (((p.2.transition now event).1).is_finished = false →
          MachineOK (p.2.transition now event).1)) :
    KbInv (applyPending kbB pendall).1.drop_finished_machines ∧
    (applyPending kbB pendall).1.drop_finished_machines.state_machines =
      kbB.state_machines.filter (fun p => !p.2.is_finished) ∧
    (∀ t, outBal (applyPending kbB pendall).2 t =
      pendingBal pend t +
        pendingBal (collectCleanups kbB.state_machines) t) := by
  have hmapfst : kbB.state_machines.map Prod.fst =
      machines0.map Prod.fst := by
    simp [hmachB, List.map_map, Function.comp_def]
  have hmachmid : (applyPending kbB pendall).1.state_machines =
      kbB.state_machines := applyPending_machines _ _
  have hordmid : (applyPending kbB pendall).1.state_machine_order =
      kbB.state_machine_order := applyPending_order _ _
  have hdrop := drop_finished_machines_eq (applyPending kbB pendall).1
    (by rw [hmachmid, hordmid, hordB, hmapfst])
    (by rw [hmachmid, hmapfst]; exact hndB)
  have hmach2 :
      (applyPending kbB pendall).1.drop_finished_machines.state_machines =
      kbB.state_machines.filter (fun p => !p.2.is_finished) := by
    rw [hdrop.1, hmachmid]
  have hord2 :
      ((applyPending kbB
          pendall).1.drop_finished_machines).state_machine_order =
      (kbB.state_machines.filter (fun p => !p.2.is_finished)).map
        Prod.fst := by
    rw [hdrop.2, hmachmid]
  refine ⟨⟨by rw [hmach2, hord2], ?_, ?_⟩, hmach2, ?_⟩
  · rw [hord2]
    exact ((List.filter_sublist kbB.state_machines).map Prod.fst).nodup
      (hmapfst ▸ hndB)
  · intro p hp
    rw [hmach2] at hp
    have hpf := List.mem_filter.mp hp
    rw [hmachB] at hpf
    obtain ⟨q, hq2, hqe⟩ := List.mem_map.mp hpf.1
    obtain ⟨hw2, hok2⟩ := hstep q hq2
    have hlive : p.2.is_finished = false := by simpa using hpf.2
    subst hqe
    exact ⟨hw2, hlive, hok2 hlive⟩
  · intro t
    rw [hpendall, applyPending_outBal, pendingBal_append]

/-- One successful `transition` call from an invariant state preserves the
invariant, and — when the event is not a duplicate press — moves the
send/stop balance of every code by exactly the credit difference of the live
machines. -/
theorem transition_ok_spec {Id T : Type} [DecidableEq Id] [DecidableEq T]
    {mapper : Mapper Id T} {kb kb2 : SMKeyboard Id T} {now : Nat}
    {event : Event Id} {outs : List (Action T)}
    (hinv : KbInv kb)
    (h : kb.transition mapper now event = .ok (kb2, outs)) :
    KbInv kb2 ∧
    ((∀ id, event = Event.KeyPress id →
        assocGet kb.state_machines id = none) →
      ∀ t, outBal outs t + totalCredit kb.state_machines t =
        totalCredit kb2.state_machines t) := by
  obtain ⟨hkeys, hnd, hmok⟩ := hinv
  rw [hkeys] at hnd
  rcases handle_key_press_event_spec mapper kb now event with hcase |
    ⟨id, conf, machine, hev, hgetnone, hmap, hb, hcase⟩ | hcase
  · -- no machine created: kb1 = kb
    simp only [SMKeyboard.transition, hcase] at h
    rw [hkeys, stepMachines_eq kb.state_machines now event hnd] at h
    simp only [Except.ok.injEq, Prod.mk.injEq] at h
    obtain ⟨h1, h2⟩ := h
    have hstepfacts : ∀ p ∈ kb.state_machines,
        ((p.2.transition now event).1).get_watched_key = p.1 ∧
        (((p.2.transition now event).1).is_finished = false →
          MachineOK (p.2.transition now event).1) := by
      intro p hp
      obtain ⟨hw, hl, hok⟩ := hmok p hp
      have := machine_any_step_ok hok hl now event
      exact ⟨hw ▸ this.1, this.2⟩
    have htail := transition_tail_spec
      { kb with
          state_machines := kb.state_machines.map
            (fun p => (p.1, (p.2.transition now event).1))
          state_machine_order := kb.state_machines.map Prod.fst }
      now event kb.state_machines
      (kb.state_machines.filterMap
        (fun p => ((p.2.transition now event).2).map (fun s => (p.1, s))))
      ((kb.state_machines.filterMap
          (fun p => ((p.2.transition now event).2).map (fun s => (p.1, s))))
        ++ collectCleanups (kb.state_machines.map
          (fun p => (p.1, (p.2.transition now event).1))))
      rfl rfl rfl hnd hstepfacts
    constructor
    · rw [← h1]
      exact htail.1
    · intro hpress t
      have hyp : ∀ p ∈ kb.state_machines, p.2.is_finished = false ∧
          MachineOK p.2 ∧
          ∀ k, event = Event.KeyPress k → k ≠ p.2.get_watched_key := by
        intro p hp
        obtain ⟨hw, hl, hok⟩ := hmok p hp
        refine ⟨hl, hok, fun k hk => ?_⟩
        have hnone := hpress k hk
        rw [assocGet_eq_none_iff] at hnone
        intro hkw
        exact hnone (hkw ▸ hw ▸ List.mem_map.mpr ⟨p, hp, rfl⟩)
      have hacc := list_accounting kb.state_machines now event hyp t
      have hout : outBal outs t =
          pendingBal (kb.state_machines.filterMap
            (fun p => ((p.2.transition now event).2).map
              (fun s => (p.1, s)))) t +
          pendingBal (collectCleanups (kb.state_machines.map
            (fun p => (p.1, (p.2.transition now event).1)))) t := by
        rw [← h2]
        exact htail.2.2 t
      have hmach : kb2.state_machines =
          (kb.state_machines.map
            (fun p => (p.1, (p.2.transition now event).1))).filter
            (fun p => !p.2.is_finished) := by
        rw [← h1]
        exact htail.2.1
      rw [hout, hmach]
      linarith [hacc]
  · -- a machine for `id` was created and appended
    subst hev
    simp only [SMKeyboard.transition, hcase] at h
    have hcrea := machine_creation_step hb now
    have hidfst : id ∉ kb.state_machines.map Prod.fst :=
      (assocGet_eq_none_iff _ _).mp hgetnone
    have horder : kb.state_machine_order ++ [id] =
        (kb.state_machines ++ [(id, machine)]).map Prod.fst := by
      simp [hkeys]
    have hnd1 : ((kb.state_machines ++ [(id, machine)]).map
        Prod.fst).Nodup := by
      rw [List.map_append]
      simp only [List.map_cons, List.map_nil]
      rw [List.nodup_append]
      exact ⟨hnd, List.nodup_singleton id,
        fun a ha hmem => hidfst ((by simpa using hmem : a = id) ▸ ha)⟩
    rw [horder, stepMachines_eq (kb.state_machines ++ [(id, machine)]) now
      (Event.KeyPress id) hnd1] at h
    simp only [Except.ok.injEq, Prod.mk.injEq] at h
    obtain ⟨h1, h2⟩ := h
    have hstepfacts : ∀ p ∈ kb.state_machines ++ [(id, machine)],
        ((p.2.transition now (Event.KeyPress id)).1).get_watched_key = p.1 ∧
        (((p.2.transition now (Event.KeyPress id)).1).is_finished = false →
          MachineOK (p.2.transition now (Event.KeyPress id)).1) := by
      intro p hp
      rcases List.mem_append.mp hp with hp2 | hp2
      · obtain ⟨hw, hl, hok⟩ := hmok p hp2
        have := machine_any_step_ok hok hl now (Event.KeyPress id)
        exact ⟨hw ▸ this.1, this.2⟩
      · have hpe : p = (id, machine) := by simpa using hp2
        subst hpe
        exact ⟨hcrea.2.2.2.2.1, fun _ => hcrea.2.2.2.1⟩
    have htail := transition_tail_spec
      { kb with
          state_machines := (kb.state_machines ++ [(id, machine)]).map
            (fun p => (p.1, (p.2.transition now (Event.KeyPress id)).1))
          state_machine_order :=
            (kb.state_machines ++ [(id, machine)]).map Prod.fst }
      now (Event.KeyPress id) (kb.state_machines ++ [(id, machine)])
      ((kb.state_machines ++ [(id, machine)]).filterMap
        (fun p => ((p.2.transition now (Event.KeyPress id)).2).map
          (fun s => (p.1, s))))
      (((kb.state_machines ++ [(id, machine)]).filterMap
          (fun p => ((p.2.transition now (Event.KeyPress id)).2).map
            (fun s => (p.1, s))))
        ++ collectCleanups ((kb.state_machines ++ [(id, machine)]).map
          (fun p => (p.1, (p.2.transition now (Event.KeyPress id)).1))))
      rfl rfl rfl hnd1 hstepfacts
    constructor
    · rw [← h1]
      exact htail.1
    · intro hpress t
      have hyp : ∀ p ∈ kb.state_machines, p.2.is_finished = false ∧
          MachineOK p.2 ∧
          ∀ k, Event.KeyPress id = Event.KeyPress k →
            k ≠ p.2.get_watched_key := by
        intro p hp
        obtain ⟨hw, hl, hok⟩ := hmok p hp
        refine ⟨hl, hok, fun k hk => ?_⟩
        cases hk
        intro hkw
        exact hidfst (hkw ▸ hw ▸ List.mem_map.mpr ⟨p, hp, rfl⟩)
      have hacc := list_accounting kb.state_machines now
        (Event.KeyPress id) hyp t
      have hout : outBal outs t =
          pendingBal ((kb.state_machines ++ [(id, machine)]).filterMap
            (fun p => ((p.2.transition now (Event.KeyPress id)).2).map
              (fun s => (p.1, s)))) t +
          pendingBal (collectCleanups
            ((kb.state_machines ++ [(id, machine)]).map
              (fun p =>
                (p.1, (p.2.transition now (Event.KeyPress id)).1)))) t := by
        rw [← h2]
        exact htail.2.2 t
      have hmach : kb2.state_machines =
          List.filter (fun p => !p.2.is_finished)
            ((kb.state_machines ++ [(id, machine)]).map
              (fun p => (p.1, (p.2.transition now (Event.KeyPress id)).1))) := by
        rw [← h1]
        exact htail.2.1
      have hfreshlive :
          ((machine.transition now (Event.KeyPress id)).1).is_finished =
            false := hcrea.2.2.1
      have hfreshcredit :
          ((machine.transition now (Event.KeyPress id)).1).credit t =
            emitBal (machine.transition now (Event.KeyPress id)).2 t :=
        hcrea.2.2.2.2.2 t
      rw [hout, hmach]
      rw [List.map_append, List.filterMap_append, List.filter_append,
        pendingBal_append, collectCleanups_append, pendingBal_append,
        totalCredit_append]
      have hcleanfresh : collectCleanups
          (List.map
            (fun p => (p.1, (p.2.transition now (Event.KeyPress id)).1))
            [(id, machine)]) = [] := by
        simp [collectCleanups, hfreshlive]
      have hfilterfresh : List.filter (fun p => !p.2.is_finished)
          (List.map
            (fun p => (p.1, (p.2.transition now (Event.KeyPress id)).1))
            [(id, machine)]) =
          [(id, (machine.transition now (Event.KeyPress id)).1)] := by
        simp [List.filter_cons, hfreshlive]
      rw [hcleanfresh, hfilterfresh]
      have hpendfresh : pendingBal
          (List.filterMap
            (fun p => ((p.2.transition now (Event.KeyPress id)).2).map
              (fun s => (p.1, s))) [(id, machine)]) t =
          emitBal (machine.transition now (Event.KeyPress id)).2 t := by
        cases h3 : (machine.transition now (Event.KeyPress id)).2 <;>
          simp [List.filterMap_cons, h3, pendingBal, emitBal,
            KeyActionSet.bal]
      rw [hpendfresh]
      have htfresh : totalCredit
          [(id, (machine.transition now (Event.KeyPress id)).1)] t =
          emitBal (machine.transition now (Event.KeyPress id)).2 t := by
        rw [totalCredit_cons]
        simp [totalCredit, hfreshcredit]
      rw [htfresh]
      simp only [pendingBal_nil, add_zero]
      linarith [hacc]
  · -- build_machine aborted
    simp only [SMKeyboard.transition, hcase] at h
    exact absurd h (by simp)

/-- Invariant and balance across a whole run from an invariant start
state. -/
theorem run_ok_spec {Id T : Type} [DecidableEq Id] [DecidableEq T]
    {mapper : Mapper Id T} {kb kbf : SMKeyboard Id T}
    {evs : List (Nat × Event Id)} {outs : List (Action T)}
    (hinv : KbInv kb)
    (h : SMKeyboard.run mapper kb evs = .ok (kbf, outs)) :
    KbInv kbf ∧
    (noDupPressRun mapper kb evs = true →
      ∀ t, outBal outs t + totalCredit kb.state_machines t =
        totalCredit kbf.state_machines t) := by
  induction evs generalizing kb outs with
  | nil =>
      simp only [SMKeyboard.run, Except.ok.injEq, Prod.mk.injEq] at h
      obtain ⟨h1, h2⟩ := h
      subst h1
      refine ⟨hinv, fun _ t => ?_⟩
      rw [← h2, outBal_nil]
      ring
  | cons p rest ih =>
      obtain ⟨now, event⟩ := p
      simp only [SMKeyboard.run] at h
      cases htr : kb.transition mapper now event with
      | error e => rw [htr] at h; exact absurd h (by simp)
      | ok r =>
          rw [htr] at h
          obtain ⟨kb1, outs1⟩ := r
          simp only [] at h
          cases hrun : SMKeyboard.run mapper kb1 rest with
          | error e => rw [hrun] at h; exact absurd h (by simp)
          | ok r2 =>
              rw [hrun] at h
              obtain ⟨kb2f, outs2⟩ := r2
              simp only [Except.ok.injEq, Prod.mk.injEq] at h
              obtain ⟨h1, h2⟩ := h
              subst h1
              have hstep := transition_ok_spec hinv htr
              have hih := ih hstep.1 hrun
              refine ⟨hih.1, fun hnd => ?_⟩
              simp only [noDupPressRun, htr, Bool.and_eq_true] at hnd
              obtain ⟨hg, hrest⟩ := hnd
              have hpress : ∀ id, event = Event.KeyPress id →
                  assocGet kb.state_machines id = none := by
                intro id hid
                subst hid
                simpa [Option.isNone_iff_eq_none] using hg
              intro t
              have hb1 := hstep.2 hpress t
              have hb2 := hih.2 hrest t
              rw [← h2, outBal_append]
              linarith

/-- Difference of send and stop counts equals the balance. -/
theorem count_sub_eq_outBal {T : Type} [DecidableEq T]
    (outs : List (Action T)) (t : T) :
    ((outs.filterMap fun a =>
        match a with
        | .SendCode d => some d
        | .Stop _ => none).count t : ℤ) -
      ((outs.filterMap fun a =>
        match a with
        | .SendCode _ => none
        | .Stop d => some d).count t : ℤ) = outBal outs t := by
  induction outs with
  | nil => simp [outBal]
  | cons a rest ih =>
      cases a with
      | SendCode d =>
          by_cases hd : d = t <;>
            (simp [List.filterMap_cons, outBal_cons, Action.bal, hd,
              List.count_cons]
             omega)
      | Stop d =>
          by_cases hd : d = t <;>
            (simp [List.filterMap_cons, outBal_cons, Action.bal, hd,
              List.count_cons]
             omega)

/-- Zero balance at every code means the send and stop multisets agree. -/
theorem multiset_eq_of_outBal_zero {T : Type} [DecidableEq T]
    (outs : List (Action T)) (h : ∀ t, outBal outs t = 0) :
    sendCodes outs = stopCodes outs := by
  refine Multiset.ext.mpr fun t => ?_
  have hc := count_sub_eq_outBal outs t
  rw [h t] at hc
  show Multiset.count t _ = Multiset.count t _
  simp only [sendCodes, stopCodes, Multiset.coe_count]
  omega

/-- C2 counterexample: with key 1 mapped to Tap{tap:{SendKey(10)}}, the
sequence KeyPress(1), KeyPress(1), KeyRelease(1), Poll finishes and drops
every machine, yet emits SendCode(10) twice and Stop(10) once, so the two
multisets differ. -/
theorem C2_counterexample :
    ((SMKeyboard.run tapMapper (SMKeyboard.new 0 seedSettings)
        [(0, .KeyPress 1), (0, .KeyPress 1), (0, .KeyRelease 1),
         (0, .Poll)]).map (fun r => (r.2, r.1.state_machines))
      = .ok ([Action.SendCode 10, Action.SendCode 10, Action.Stop 10], [])) ∧
    sendCodes [Action.SendCode 10, Action.SendCode 10, Action.Stop 10] ≠
      stopCodes [Action.SendCode 10, Action.SendCode 10, Action.Stop 10] :=
  ⟨rfl, by decide⟩

/-- C2 (amended): for every event sequence driven through `transition` from
a fresh engine in which no `KeyPress(id)` arrives while a machine for `id`
is live, once the run returns normally and all machines have been dropped
(after the flushing `Poll`), the multiset of `SendCode(t)` codes equals the
multiset of `Stop(t)` codes. -/
theorem C2_send_stop_balance {Id T : Type} [DecidableEq Id] [DecidableEq T]
    (mapper : Mapper Id T) (default_layer : LayerId)
    (settings : SMKeyboardSettings) (evs : List (Nat × Event Id))
    (kbf : SMKeyboard Id T) (outs : List (Action T))
    (hrun : SMKeyboard.run mapper (SMKeyboard.new default_layer settings) evs
      = .ok (kbf, outs))
    (hnodup : noDupPressRun mapper (SMKeyboard.new default_layer settings)
      evs = true)
    (hfin : kbf.state_machines = []) :
    sendCodes outs = stopCodes outs := by
  have hinv0 : KbInv (SMKeyboard.new default_layer settings :
      SMKeyboard Id T) := ⟨rfl, List.nodup_nil, by simp [SMKeyboard.new]⟩
  have hr := run_ok_spec hinv0 hrun
  have hb := hr.2 hnodup
  apply multiset_eq_of_outBal_zero
  intro t
  have hbt := hb t
  rw [hfin] at hbt
  simp only [SMKeyboard.new, totalCredit, List.map_nil, List.sum_nil] at hbt
  linarith

/-- C2 witness: a clean tap cycle balances its sends and stops. -/
theorem C2_witness :
    (SMKeyboard.run tapMapper (SMKeyboard.new 0 seedSettings)
        [(0, .KeyPress 1), (0, .KeyRelease 1), (0, .Poll)] =
      .ok (SMKeyboard.new 0 seedSettings,
           [Action.SendCode 10, Action.Stop 10])) ∧
    (noDupPressRun tapMapper (SMKeyboard.new 0 seedSettings)
        [(0, .KeyPress 1), (0, .KeyRelease 1), (0, .Poll)] = true) ∧
    ((SMKeyboard.new 0 seedSettings :
        SMKeyboard Nat Nat).state_machines = []) ∧
    sendCodes [Action.SendCode 10, Action.Stop 10] =
      stopCodes [Action.SendCode 10, Action.Stop 10] :=
  ⟨rfl, rfl, rfl,
   C2_send_stop_balance tapMapper 0 seedSettings
     [(0, .KeyPress 1), (0, .KeyRelease 1), (0, .Poll)]
     (SMKeyboard.new 0 seedSettings)
     [Action.SendCode 10, Action.Stop 10] rfl rfl rfl⟩

/-- C8: after any successful run from a fresh engine, the creation-order
list carries each live key id exactly once and matches the machine map;
a `KeyPress(id)` arriving while a machine watches `id` creates no second
machine — the machine-creation phase leaves the engine untouched and the
event is only forwarded to the machines in the broadcast phase. -/
theorem C8_one_machine_per_key {Id T : Type} [DecidableEq Id]
    [DecidableEq T] (mapper : Mapper Id T) (default_layer : LayerId)
    (settings : SMKeyboardSettings) (evs : List (Nat × Event Id))
    (kbf : SMKeyboard Id T) (outs : List (Action T))
    (hrun : SMKeyboard.run mapper (SMKeyboard.new default_layer settings) evs
      = .ok (kbf, outs)) :
    kbf.state_machine_order.Nodup ∧
    kbf.state_machine_order = kbf.state_machines.map Prod.fst ∧
    (∀ (id : Id) (now : Nat), (assocGet kbf.state_machines id).isSome = true →
      SMKeyboard.handle_key_press_event mapper kbf now (Event.KeyPress id) =
        .ok kbf) := by
  have hinv0 : KbInv (SMKeyboard.new default_layer settings :
      SMKeyboard Id T) := ⟨rfl, List.nodup_nil, by simp [SMKeyboard.new]⟩
  have hr := (run_ok_spec hinv0 hrun).1
  exact ⟨hr.2.1, hr.1,
    fun id now hs => handle_key_press_event_existing mapper kbf now hs⟩

/-- C8 witness: after one press, the order list is `[1]`, matching the map,
and a duplicate press leaves the creation phase inert. -/
theorem C8_witness :
    (SMKeyboard.run tapMapper (SMKeyboard.new 0 seedSettings)
        [(0, .KeyPress 1)] = .ok (c8kbf, [Action.SendCode 10])) ∧
    (c8kbf.state_machine_order.Nodup ∧
     c8kbf.state_machine_order = c8kbf.state_machines.map Prod.fst ∧
     (∀ (id : Nat) (now : Nat),
        (assocGet c8kbf.state_machines id).isSome = true →
        SMKeyboard.handle_key_press_event tapMapper c8kbf now
          (Event.KeyPress id) = .ok c8kbf)) :=
  ⟨rfl,
   C8_one_machine_per_key tapMapper 0 seedSettings [(0, .KeyPress 1)] c8kbf
     [Action.SendCode 10] rfl⟩

/-- C10 witness: concrete push/pop around a non-layer action restores the
active layer. -/
theorem C10_witness :
    (∀ a ∈ [KeyAction.SendKey 7], a.is_layer_action = false) ∧
    ((applyKeyActions (c10kb.handle_key_action (KeyAction.PushLayer 5)).1
        [KeyAction.SendKey 7]).1.handle_key_action
      (KeyAction.PopLayer 5)).1.get_active_layer = c10kb.get_active_layer :=
  ⟨by decide,
   C10_push_pop_restores_active_layer c10kb 5 [KeyAction.SendKey 7]
     (by decide)⟩

end Keywerty
